import Mathlib

/-!
Shallow embedding of the `resbadger` secondary-index package: the key
codec (`Index.getKey`, `Index.getQuery`), the query engine
(`IndexQuery.FetchCollection`) and the listener registry (`IndexSet`).

Bytes are modelled as `Nat`, byte strings as `List Nat`, and the ordered
key-value store as the list of its keys in iteration order (the store
collaborator guarantees byte-ordered iteration; a reverse iteration
yields the keys under the scan prefix in the opposite order).  Go `int`
values (`Offset`, `Limit`) are modelled as `Int`.  A fallible fetch
returns `Except`, the error carrying the offending key.
-/

namespace ResBadger

/-- Byte that separates the index key prefix from the resource ID
(`ridSeparator = byte(0)`). -/
def ridSeparator : Nat := 0

/-- The ASCII colon written between the index name and the value. -/
def colonByte : Nat := 58

/-- Max initial buffer size for results (`resultBufSize = 256`); it only
sizes an allocation and has no observable effect on the result. -/
def resultBufSize : Nat := 256

/-- Max int value (`int(^uint(0) >> 1)` on a 64-bit platform). -/
def maxInt : Int := 2 ^ 63 - 1

/-- An index definition.  Only the name takes part in the encoded data
path; the `Key` callback runs outside the code under verification. -/
structure Index where
  Name : List Nat

/-- A listener registration: an opaque callback token and the index name
it is scoped to (`""`, i.e. `[]`, when registered via `Listen`). -/
structure indexListener (α : Type) where
  cb : α
  name : List Nat

/-- A set of indexes for a model resource, with its listeners. -/
structure IndexSet (α : Type) where
  Indexes : List Index
  listeners : List (indexListener α)

/-- `Listen` appends a listener with the zero-value (empty) name. -/
def IndexSet.Listen {α : Type} (i : IndexSet α) (cb : α) : IndexSet α :=
  { i with listeners := i.listeners ++ [{ cb := cb, name := [] }] }

/-- `ListenIndex` appends a listener scoped to one index name. -/
def IndexSet.ListenIndex {α : Type} (i : IndexSet α) (name : List Nat) (cb : α) :
    IndexSet α :=
  { i with listeners := i.listeners ++ [{ cb := cb, name := name }] }

/-- `triggerListeners` calls the callback of each listener whose `name`
field equals the dispatched `name`; the result lists the callbacks that
were invoked, in order. -/
def IndexSet.triggerListeners {α : Type} (i : IndexSet α) (name : List Nat) : List α :=
  (i.listeners.filter (fun il => il.name == name)).map (fun il => il.cb)

/-- Go `copy(dst[off:], src)`: writes `src` into `dst` from position
`off`, clipped to the length of `dst`. -/
def copyAt (dst : List Nat) (off : Nat) (src : List Nat) : List Nat :=
  dst.take off ++ src.take (dst.length - off) ++ dst.drop (off + src.length)

/-- Go `dst[i] = c`. -/
def setAt (dst : List Nat) (i : Nat) (c : Nat) : List Nat :=
  dst.set i c

/-- `Index.getKey`: the entry key for resource name `rname` and encoded
index value `value`, built by the same buffer writes as the source
(`make` zero-fills, then name, `':'`, value, `ridSeparator`, rname). -/
def Index.getKey (idx : Index) (rname value : List Nat) : List Nat :=
  let b := List.replicate (idx.Name.length + value.length + rname.length + 2) 0
  let b := copyAt b 0 idx.Name
  let offset := idx.Name.length
  let b := setAt b offset colonByte
  let offset := offset + 1
  let b := copyAt b offset value
  let offset := offset + value.length
  let b := setAt b offset ridSeparator
  copyAt b (offset + 1) rname

/-- `Index.getQuery`: the scan prefix for a caller key prefix. -/
def Index.getQuery (idx : Index) (keyPrefixA : List Nat) : List Nat :=
  let b := List.replicate (idx.Name.length + keyPrefixA.length + 1) 0
  let b := copyAt b 0 idx.Name
  let offset := idx.Name.length
  let b := setAt b offset colonByte
  copyAt b (offset + 1) keyPrefixA

/-- `bytes.LastIndexByte`: the index of the last occurrence of `c` in
`s`, `none` when absent (Go returns `-1`). -/
def lastIndexByte (s : List Nat) (c : Nat) : Option Nat :=
  match s with
  | [] => none
  | a :: rest =>
    match lastIndexByte rest c with
    | some i => some (i + 1)
    | none => if a = c then some 0 else none

/-- Go slice expression `k[i:j]`. -/
def goSlice (k : List Nat) (i j : Nat) : List Nat :=
  (k.take j).drop i

/-- An index query, as in the source; `Offset` and `Limit` are Go ints. -/
structure IndexQuery where
  Index : ResBadger.Index
  KeyPrefix : List Nat
  FilterKeys : Option (List Nat → Bool)
  Offset : Int
  Limit : Int
  Reverse : Bool

/-- The source's `if filter != nil { if !filter(k[namelen:idx]) { continue } }`:
true when a filter is set and rejects the raw encoded value. -/
def filterSkip (filter : Option (List Nat → Bool)) (v : List Nat) : Bool :=
  match filter with
  | some f => !f v
  | none => false

/-- The iteration body of `FetchCollection` over the keys under the scan
prefix, carrying the mutable `offset`, `limit` and `result` variables of
the source loop.  An error aborts the whole fetch with the offending
key and no partial result. -/
def fetchLoop (qplen namelen : Nat) (filter : Option (List Nat → Bool)) :
    List (List Nat) → Int → Int → List (List Nat) →
      Except (List Nat) (List (List Nat))
  | [], _offset, _limit, result => Except.ok result
  | k :: rest, offset, limit, result =>
    match lastIndexByte k ridSeparator with
    | none => Except.error k
    | some idx =>
      if qplen > idx then
        fetchLoop qplen namelen filter rest offset limit result
      else if filterSkip filter (goSlice k namelen idx) then
        fetchLoop qplen namelen filter rest offset limit result
      else if offset > 0 then
        fetchLoop qplen namelen filter rest (offset - 1) limit result
      else
        let result := result ++ [k.drop (idx + 1)]
        let limit := limit - 1
        if limit = 0 then Except.ok result
        else fetchLoop qplen namelen filter rest offset limit result

/-- `IndexQuery.FetchCollection` over a store modelled as the list of
its keys in forward iteration order. -/
def IndexQuery.FetchCollection (iq : IndexQuery) (store : List (List Nat)) :
    Except (List Nat) (List (List Nat)) :=
  let offset := iq.Offset
  let limit := iq.Limit
  if limit = 0 then Except.ok []
  else
    let limit := if limit < 0 then maxInt else limit
    let queryPrefixA := iq.Index.getQuery iq.KeyPrefix
    let qplen := queryPrefixA.length
    let namelen := iq.Index.Name.length + 1
    let keys := store.filter (fun k => queryPrefixA.isPrefixOf k)
    let keys := if iq.Reverse then keys.reverse else keys
    fetchLoop qplen namelen iq.FilterKeys keys offset limit []

/-! ### Helper lemmas: the codec as concatenation -/

lemma copyAt_replicate_zero (n : Nat) (src : List Nat) (h : src.length ≤ n) :
    copyAt (List.replicate n 0) 0 src = src ++ List.replicate (n - src.length) 0 := by
  simp [copyAt, List.take_of_length_le h, List.drop_replicate]

lemma setAt_append (xs : List Nat) (y c : Nat) (ys : List Nat) :
    setAt (xs ++ y :: ys) xs.length c = xs ++ c :: ys := by
  simp [setAt, List.set_append_right _ _ (Nat.le_refl _)]

lemma copyAt_append (xs ys src : List Nat) (k : Nat) :
    copyAt (xs ++ ys) (xs.length + k) src = xs ++ copyAt ys k src := by
  unfold copyAt
  rw [List.take_append_eq_append_take, List.drop_append_eq_append_drop]
  simp [List.take_of_length_le, Nat.add_assoc]
  have h1 : xs.length + ys.length - (xs.length + k) = ys.length - k := by omega
  rw [h1, List.drop_eq_nil_of_le (by omega)]
  simp

lemma copyAt_append_cons (xs : List Nat) (y : Nat) (ys src : List Nat) :
    copyAt (xs ++ y :: ys) (xs.length + 1) src = xs ++ y :: copyAt ys 0 src := by
  have h := copyAt_append (xs ++ [y]) ys src 0
  simpa using h

lemma setAt_append_cons_append (xs : List Nat) (y : Nat) (zs : List Nat) (w : Nat)
    (ws : List Nat) (c : Nat) :
    setAt (xs ++ y :: (zs ++ w :: ws)) (xs.length + 1 + zs.length) c
      = xs ++ y :: (zs ++ c :: ws) := by
  have hp : xs.length + 1 + zs.length = (xs ++ y :: zs).length := by
    simp [List.length_append]; omega
  have hb : xs ++ y :: (zs ++ w :: ws) = (xs ++ y :: zs) ++ w :: ws := by simp
  rw [hb, hp, setAt_append]; simp

lemma copyAt_append_cons_append (xs : List Nat) (y : Nat) (zs : List Nat) (w : Nat)
    (ws src : List Nat) :
    copyAt (xs ++ y :: (zs ++ w :: ws)) (xs.length + 1 + zs.length + 1) src
      = xs ++ y :: (zs ++ w :: copyAt ws 0 src) := by
  have hp : xs.length + 1 + zs.length + 1 = (xs ++ y :: (zs ++ [w])).length + 0 := by
    simp [List.length_append]; omega
  have hb : xs ++ y :: (zs ++ w :: ws) = (xs ++ y :: (zs ++ [w])) ++ ws := by simp
  rw [hb, hp, copyAt_append]; simp

/-- `getKey` builds exactly `name ++ \':\' ++ value ++ 0x00 ++ rname`. -/
lemma getKey_eq (idx : Index) (rname value : List Nat) :
    idx.getKey rname value =
      idx.Name ++ colonByte :: (value ++ ridSeparator :: rname) := by
  simp only [Index.getKey]
  rw [copyAt_replicate_zero _ _ (by omega),
    show idx.Name.length + value.length + rname.length + 2 - idx.Name.length
      = value.length + rname.length + 2 from by omega,
    List.replicate_succ, setAt_append, copyAt_append_cons,
    copyAt_replicate_zero _ _ (by omega),
    show value.length + rname.length + 1 - value.length = rname.length + 1 from by omega,
    List.replicate_succ, setAt_append_cons_append, copyAt_append_cons_append,
    copyAt_replicate_zero _ _ (by omega)]
  simp

/-- `getQuery` builds exactly `name ++ \':\' ++ keyPrefix`. -/
lemma getQuery_eq (idx : Index) (kp : List Nat) :
    idx.getQuery kp = idx.Name ++ colonByte :: kp := by
  simp only [Index.getQuery]
  rw [copyAt_replicate_zero _ _ (by omega),
    show idx.Name.length + kp.length + 1 - idx.Name.length = kp.length + 1 from by omega,
    List.replicate_succ, setAt_append, copyAt_append_cons,
    copyAt_replicate_zero _ _ (by omega)]
  simp

/-! ### Byte-lexicographic order on keys -/

/-- Strict byte-lexicographic order on byte strings: the order in which
the store iterates its keys. -/
def byteLexLt (a b : List Nat) : Prop :=
  List.Lex (fun x y : Nat => x < y) a b

instance (a b : List Nat) : Decidable (byteLexLt a b) := by
  unfold byteLexLt; exact List.Lex.decidableRel _ a b

lemma byteLexLt_cons_iff (a b : Nat) (l1 l2 : List Nat) :
    byteLexLt (a :: l1) (b :: l2) ↔ a < b ∨ (a = b ∧ byteLexLt l1 l2) := by
  constructor
  · intro h
    cases h with
    | cons h => exact Or.inr ⟨rfl, h⟩
    | rel h => exact Or.inl h
  · rintro (h | ⟨rfl, h⟩)
    · exact List.Lex.rel h
    · exact List.Lex.cons h

lemma byteLexLt_append_left_iff (a x y : List Nat) :
    byteLexLt (a ++ x) (a ++ y) ↔ byteLexLt x y := by
  induction a with
  | nil => rfl
  | cons h t ih =>
    simp [byteLexLt_cons_iff, ih, Nat.lt_irrefl]

lemma byteLexLt_nil_right (l : List Nat) : ¬ byteLexLt l [] :=
  List.Lex.not_nil_right _ _

lemma byteLexLt_nil_cons (a : Nat) (l : List Nat) : byteLexLt [] (a :: l) :=
  List.Lex.nil

/-- With zero-free values, comparing `value ++ 0x00 ++ rid` byte strings
is comparing the values, ties broken by the rids. -/
lemma byteLexLt_sep_iff (v1 r1 v2 r2 : List Nat) (h1 : ridSeparator ∉ v1)
    (h2 : ridSeparator ∉ v2) :
    byteLexLt (v1 ++ ridSeparator :: r1) (v2 ++ ridSeparator :: r2) ↔
      byteLexLt v1 v2 ∨ (v1 = v2 ∧ byteLexLt r1 r2) := by
  induction v1 generalizing v2 with
  | nil =>
    cases v2 with
    | nil => simp [byteLexLt_cons_iff, byteLexLt_nil_right]
    | cons b v2t =>
      have hb : ridSeparator < b := by
        have hbne : b ≠ ridSeparator := fun e => h2 (e ▸ List.mem_cons_self b v2t)
        simp only [ridSeparator] at hbne ⊢
        omega
      simp [byteLexLt_cons_iff, hb, byteLexLt_nil_cons]
  | cons a v1t ih =>
    cases v2 with
    | nil =>
      have ha : a ≠ ridSeparator := fun e => h1 (e ▸ List.mem_cons_self a v1t)
      have ha0 : ¬ a < ridSeparator := by simp [ridSeparator]
      simp [byteLexLt_cons_iff, byteLexLt_nil_right, ha, ha0]
    | cons b v2t =>
      have h1t : ridSeparator ∉ v1t := fun m => h1 (List.mem_cons_of_mem _ m)
      have h2t : ridSeparator ∉ v2t := fun m => h2 (List.mem_cons_of_mem _ m)
      simp only [List.cons_append, byteLexLt_cons_iff, ih v2t h1t h2t, List.cons.injEq]
      constructor
      · rintro (h | ⟨rfl, h | ⟨rfl, h⟩⟩)
        · exact Or.inl (Or.inl h)
        · exact Or.inl (Or.inr ⟨rfl, h⟩)
        · exact Or.inr ⟨⟨rfl, rfl⟩, h⟩
      · rintro ((h | ⟨rfl, h⟩) | ⟨⟨rfl, rfl⟩, h⟩)
        · exact Or.inl h
        · exact Or.inr ⟨rfl, Or.inl h⟩
        · exact Or.inr ⟨rfl, Or.inr ⟨rfl, h⟩⟩

/-! ### Helper lemmas: locating the separator -/

lemma lastIndexByte_eq_none_iff (s : List Nat) (c : Nat) :
    lastIndexByte s c = none ↔ c ∉ s := by
  induction s with
  | nil => simp [lastIndexByte]
  | cons a rest ih =>
    simp only [lastIndexByte, List.mem_cons]
    cases h : lastIndexByte rest c with
    | some i =>
      have hc : c ∈ rest := by
        by_contra hc
        exact absurd (ih.2 hc) (by simp [h])
      simp [hc]
    | none =>
      rw [h] at ih
      by_cases hac : a = c
      · simp [hac]
      · simp [hac, ih.1 rfl, Ne.symm hac]

lemma lastIndexByte_append (xs ys : List Nat) (c : Nat) :
    lastIndexByte (xs ++ ys) c =
      match lastIndexByte ys c with
      | some i => some (xs.length + i)
      | none => lastIndexByte xs c := by
  induction xs with
  | nil => cases h : lastIndexByte ys c <;> simp [h, lastIndexByte]
  | cons a xst ih =>
    cases h : lastIndexByte ys c with
    | some i =>
      simp only [h] at ih
      simp [lastIndexByte, ih, Nat.add_right_comm]
    | none =>
      simp only [h] at ih
      cases h2 : lastIndexByte xst c <;> simp [lastIndexByte, ih, h2]

/-- The last zero byte of an entry key is the separator written by
`getKey`, provided neither the value nor the resource name holds one. -/
lemma lastIndexByte_getKey (idx : Index) (rname value : List Nat)
    (hr : ridSeparator ∉ rname) :
    lastIndexByte (idx.getKey rname value) ridSeparator
      = some (idx.Name.length + 1 + value.length) := by
  have hk : idx.getKey rname value
      = (idx.Name ++ colonByte :: value) ++ ridSeparator :: rname := by
    rw [getKey_eq]; simp
  rw [hk, lastIndexByte_append]
  have hnone : lastIndexByte rname ridSeparator = none :=
    (lastIndexByte_eq_none_iff _ _).2 hr
  simp [lastIndexByte, hnone, List.length_append, Nat.add_right_comm]
  omega


/-- The bytes after the separator written by `getKey` are the resource
name. -/
lemma getKey_drop (idx : Index) (rname value : List Nat) :
    (idx.getKey rname value).drop (idx.Name.length + 1 + value.length + 1) = rname := by
  rw [getKey_eq,
    show idx.Name ++ colonByte :: (value ++ ridSeparator :: rname)
      = (idx.Name ++ colonByte :: value ++ [ridSeparator]) ++ rname from by simp]
  exact List.drop_left' (by simp [List.length_append]; omega)

/-- The bytes between the name prefix and the separator written by
`getKey` are the encoded value. -/
lemma getKey_slice (idx : Index) (rname value : List Nat) :
    goSlice (idx.getKey rname value) (idx.Name.length + 1)
      (idx.Name.length + 1 + value.length) = value := by
  rw [getKey_eq]
  unfold goSlice
  rw [show idx.Name ++ colonByte :: (value ++ ridSeparator :: rname)
      = (idx.Name ++ colonByte :: value) ++ ridSeparator :: rname from by simp,
    List.take_left' (by simp [List.length_append]; omega),
    show idx.Name ++ colonByte :: value = (idx.Name ++ [colonByte]) ++ value from by simp]
  exact List.drop_left' (by simp)


/-! ### Helper lemmas: the fetch loop -/

/-- A key with no separator aborts the loop at once, discarding the
partial result. -/
lemma fetchLoop_error (qplen namelen : Nat) (filter : Option (List Nat → Bool))
    (k : List Nat) (rest : List (List Nat)) (o l : Int) (acc : List (List Nat))
    (h : lastIndexByte k ridSeparator = none) :
    fetchLoop qplen namelen filter (k :: rest) o l acc = Except.error k := by
  simp [fetchLoop, h]

/-- A key whose last separator sits inside the scan prefix is skipped:
no result, no offset or limit consumption, no error. -/
lemma fetchLoop_skip (qplen namelen : Nat) (filter : Option (List Nat → Bool))
    (k : List Nat) (rest : List (List Nat)) (o l : Int) (acc : List (List Nat))
    (i : Nat) (h : lastIndexByte k ridSeparator = some i) (hq : i < qplen) :
    fetchLoop qplen namelen filter (k :: rest) o l acc
      = fetchLoop qplen namelen filter rest o l acc := by
  simp [fetchLoop, h, hq]

/-- The accumulated result threads through the loop as a prefix. -/
lemma fetchLoop_acc (qplen namelen : Nat) (filter : Option (List Nat → Bool))
    (ks : List (List Nat)) : ∀ (o l : Int) (acc : List (List Nat)),
    fetchLoop qplen namelen filter ks o l acc
      = Except.map (fun r => acc ++ r) (fetchLoop qplen namelen filter ks o l []) := by
  induction ks with
  | nil => intro o l acc; simp [fetchLoop, Except.map]
  | cons k rest ih =>
    intro o l acc
    simp only [fetchLoop]
    cases h : lastIndexByte k ridSeparator with
    | none => simp [Except.map]
    | some idx =>
      by_cases hq : qplen > idx
      · simpa [hq] using ih o l acc
      · simp only [hq, if_false]
        by_cases hf : filterSkip filter (goSlice k namelen idx) = true
        · simpa [hf] using ih o l acc
        · simp only [hf, if_false]
          by_cases ho : o > 0
          · simpa [ho] using ih (o - 1) l acc
          · simp only [ho, if_false]
            by_cases hl : l - 1 = 0
            · simp [hl, Except.map]
            · simp only [hl, if_false]
              rw [ih o (l - 1) (acc ++ [k.drop (idx + 1)]),
                ih o (l - 1) ([] ++ [k.drop (idx + 1)])]
              cases fetchLoop qplen namelen filter rest o (l - 1) [] <;>
                simp [Except.map]

/-- When every key carries a separator, the loop cannot fail. -/
lemma fetchLoop_ok_of_wf (qplen namelen : Nat) (filter : Option (List Nat → Bool))
    (ks : List (List Nat)) : ∀ (o l : Int) (acc : List (List Nat)),
    (∀ k ∈ ks, lastIndexByte k ridSeparator ≠ none) →
    ∃ r, fetchLoop qplen namelen filter ks o l acc = Except.ok r := by
  induction ks with
  | nil => intro o l acc _; exact ⟨acc, rfl⟩
  | cons k rest ih =>
    intro o l acc hwf
    have hrest : ∀ k ∈ rest, lastIndexByte k ridSeparator ≠ none :=
      fun k hk => hwf k (List.mem_cons_of_mem _ hk)
    simp only [fetchLoop]
    cases h : lastIndexByte k ridSeparator with
    | none => exact absurd h (hwf k (List.mem_cons_self _ _))
    | some idx =>
      by_cases hq : qplen > idx
      · simpa [hq] using ih o l acc hrest
      · simp only [hq, if_false]
        by_cases hf : filterSkip filter (goSlice k namelen idx) = true
        · simpa [hf] using ih o l acc hrest
        · simp only [hf, if_false]
          by_cases ho : o > 0
          · simpa [ho] using ih (o - 1) l acc hrest
          · simp only [ho, if_false]
            by_cases hl : l - 1 = 0
            · exact ⟨acc ++ [k.drop (idx + 1)], by simp [hl]⟩
            · simpa [hl] using ih o (l - 1) (acc ++ [k.drop (idx + 1)]) hrest

/-- A successful loop run with a positive limit returns at most
`acc.length + limit` entries. -/
lemma fetchLoop_length (qplen namelen : Nat) (filter : Option (List Nat → Bool))
    (ks : List (List Nat)) : ∀ (o l : Int) (acc r : List (List Nat)), 0 < l →
    fetchLoop qplen namelen filter ks o l acc = Except.ok r →
    r.length ≤ acc.length + l.toNat := by
  induction ks with
  | nil =>
    intro o l acc r hl h
    simp only [fetchLoop, Except.ok.injEq] at h
    subst h
    omega
  | cons k rest ih =>
    intro o l acc r hl h
    cases hli : lastIndexByte k ridSeparator with
    | none =>
      rw [fetchLoop_error _ _ _ _ _ _ _ _ hli] at h
      exact absurd h (by simp)
    | some idx =>
      simp only [fetchLoop, hli] at h
      by_cases hq : qplen > idx
      · rw [if_pos hq] at h
        exact ih o l acc r hl h
      · rw [if_neg hq] at h
        by_cases hf : filterSkip filter (goSlice k namelen idx) = true
        · rw [if_pos hf] at h
          exact ih o l acc r hl h
        · rw [if_neg hf] at h
          by_cases ho : o > 0
          · rw [if_pos ho] at h
            exact ih (o - 1) l acc r hl h
          · rw [if_neg ho] at h
            by_cases hl1 : l - 1 = 0
            · rw [if_pos hl1] at h
              simp only [Except.ok.injEq] at h
              subst h
              simp only [List.length_append, List.length_cons, List.length_nil]
              omega
            · rw [if_neg hl1] at h
              have hlen := ih o (l - 1) (acc ++ [k.drop (idx + 1)]) r (by omega) h
              simp only [List.length_append, List.length_cons, List.length_nil] at hlen
              omega

/-- Offset/limit composition at the loop level: skipping `o` entries
with limit `l` is fetching `o + l` entries and slicing. -/
lemma fetchLoop_offset (qplen namelen : Nat) (filter : Option (List Nat → Bool))
    (ks : List (List Nat)) : ∀ (o l : Int), 0 ≤ o → 1 ≤ l →
    fetchLoop qplen namelen filter ks o l []
      = Except.map (fun r => (r.drop o.toNat).take l.toNat)
          (fetchLoop qplen namelen filter ks 0 (o + l) []) := by
  induction ks with
  | nil => intro o l ho hl; simp [fetchLoop, Except.map]
  | cons k rest ih =>
    intro o l ho hl
    cases hli : lastIndexByte k ridSeparator with
    | none =>
      rw [fetchLoop_error _ _ _ _ _ _ _ _ hli, fetchLoop_error _ _ _ _ _ _ _ _ hli]
      simp [Except.map]
    | some idx =>
      simp only [fetchLoop, hli]
      by_cases hq : qplen > idx
      · simp only [if_pos hq]
        exact ih o l ho hl
      · simp only [if_neg hq]
        by_cases hf : filterSkip filter (goSlice k namelen idx) = true
        · simp only [if_pos hf]
          exact ih o l ho hl
        · simp only [if_neg hf, if_neg (by omega : ¬ (0 : Int) > 0)]
          by_cases ho2 : o > 0
          · simp only [if_pos ho2, if_neg (by omega : ¬ o + l - 1 = 0), List.nil_append]
            rw [ih (o - 1) l (by omega) hl,
              show o - 1 + l = o + l - 1 from by omega,
              fetchLoop_acc qplen namelen filter rest 0 (o + l - 1) [k.drop (idx + 1)]]
            cases fetchLoop qplen namelen filter rest 0 (o + l - 1) [] with
            | error e => simp [Except.map]
            | ok r =>
              simp only [Except.map, List.singleton_append]
              rw [show o.toNat = (o - 1).toNat + 1 from by omega]
              simp [List.drop_succ_cons]
          · have ho0 : o = 0 := by omega
            subst ho0
            simp only [if_neg (by omega : ¬ (0 : Int) > 0), zero_add, List.nil_append]
            by_cases hl1 : l - 1 = 0
            · simp only [if_pos hl1, Except.map]
              rw [show l.toNat = 1 from by omega]
              simp
            · simp only [if_neg hl1]
              rw [fetchLoop_acc qplen namelen filter rest 0 (l - 1) [k.drop (idx + 1)]]
              cases hb : fetchLoop qplen namelen filter rest 0 (l - 1) [] with
              | error e => simp [Except.map]
              | ok r =>
                have hlen := fetchLoop_length qplen namelen filter rest 0 (l - 1) [] r
                  (by omega) hb
                simp only [List.length_nil, Nat.zero_add] at hlen
                simp only [Except.map, List.singleton_append, List.drop_zero]
                rw [show l.toNat = (l - 1).toNat + 1 from by omega]
                simp [List.take_of_length_le (show r.length ≤ l.toNat - 1 from by omega)]


/-! ### Helper: characterising an unlimited, offset-free scan -/

/-- Whether the loop keeps key `k`: a separator is present, the boundary
check passes, and the filter (when set) accepts the raw encoded value. -/
def keyPass (qplen namelen : Nat) (filter : Option (List Nat → Bool))
    (k : List Nat) : Bool :=
  match lastIndexByte k ridSeparator with
  | none => false
  | some idx => decide (qplen ≤ idx) && !(filterSkip filter (goSlice k namelen idx))

/-- The resource reference the loop appends for key `k`: the bytes after
the last separator. -/
def ridOf (k : List Nat) : List Nat :=
  k.drop (((lastIndexByte k ridSeparator).getD 0) + 1)

/-- The raw encoded index value of key `k`: the bytes between the
index-name prefix and the last separator. -/
def rawValue (namelen : Nat) (k : List Nat) : List Nat :=
  goSlice k namelen ((lastIndexByte k ridSeparator).getD 0)

/-- With offset 0 and a limit larger than the number of passing keys,
the loop returns exactly the passing keys' resource references. -/
lemma fetchLoop_full (qplen namelen : Nat) (filter : Option (List Nat → Bool))
    (ks : List (List Nat)) : ∀ (l : Int) (acc : List (List Nat)),
    (∀ k ∈ ks, lastIndexByte k ridSeparator ≠ none) →
    ((ks.filter (keyPass qplen namelen filter)).length : Int) < l →
    fetchLoop qplen namelen filter ks 0 l acc
      = Except.ok (acc ++ (ks.filter (keyPass qplen namelen filter)).map ridOf) := by
  induction ks with
  | nil => intro l acc _ _; simp [fetchLoop]
  | cons k rest ih =>
    intro l acc hwf hlt
    have hrest : ∀ k ∈ rest, lastIndexByte k ridSeparator ≠ none :=
      fun k hk => hwf k (List.mem_cons_of_mem _ hk)
    cases hli : lastIndexByte k ridSeparator with
    | none => exact absurd hli (hwf k (List.mem_cons_self _ _))
    | some idx =>
      simp only [fetchLoop, hli]
      by_cases hq : qplen > idx
      · have hp : keyPass qplen namelen filter k = false := by
          simp [keyPass, hli]; omega
        rw [if_pos hq]
        rw [List.filter_cons_of_neg (by simp [hp])] at hlt ⊢
        exact ih l acc hrest hlt
      · rw [if_neg hq]
        by_cases hf : filterSkip filter (goSlice k namelen idx) = true
        · have hp : keyPass qplen namelen filter k = false := by
            simp [keyPass, hli, hf]
          rw [if_pos hf]
          rw [List.filter_cons_of_neg (by simp [hp])] at hlt ⊢
          exact ih l acc hrest hlt
        · have hp : keyPass qplen namelen filter k = true := by
            simp only [keyPass, hli]
            simp only [Bool.not_eq_true] at hf
            simp [hf]
            omega
          rw [List.filter_cons_of_pos (by simp [hp])] at hlt ⊢
          rw [if_neg hf, if_neg (by omega : ¬ (0 : Int) > 0)]
          simp only [List.length_cons] at hlt
          rw [if_neg (by push_cast at hlt ⊢; omega : ¬ l - 1 = 0)]
          rw [ih (l - 1) (acc ++ [k.drop (idx + 1)]) hrest (by push_cast at hlt ⊢; omega)]
          have hrid : k.drop (idx + 1) = ridOf k := by simp [ridOf, hli]
          rw [hrid]
          simp

/-- A set filter splits off the unfiltered passing keys. -/
lemma keyPass_filter_split (qplen namelen : Nat) (f : List Nat → Bool)
    (ks : List (List Nat)) :
    ks.filter (keyPass qplen namelen (some f))
      = (ks.filter (keyPass qplen namelen none)).filter
          (fun k => f (rawValue namelen k)) := by
  rw [List.filter_filter]
  apply List.filter_congr
  intro k _
  simp only [keyPass, rawValue, filterSkip]
  cases lastIndexByte k ridSeparator with
  | none => simp
  | some idx =>
    simp only [Option.getD_some]
    cases f (goSlice k namelen idx) <;> simp


/-- Unfolding `FetchCollection` when the limit is nonzero. -/
lemma FetchCollection_eq (iq : IndexQuery) (store : List (List Nat))
    (h : ¬ iq.Limit = 0) :
    iq.FetchCollection store
      = fetchLoop (iq.Index.getQuery iq.KeyPrefix).length (iq.Index.Name.length + 1)
          iq.FilterKeys
          (if iq.Reverse
            then (store.filter
              (fun k => (iq.Index.getQuery iq.KeyPrefix).isPrefixOf k)).reverse
            else store.filter
              (fun k => (iq.Index.getQuery iq.KeyPrefix).isPrefixOf k))
          iq.Offset (if iq.Limit < 0 then maxInt else iq.Limit) [] := by
  simp only [IndexQuery.FetchCollection, if_neg h]

/-- Membership in the iterated key list comes from the store with a
prefix match, whichever direction is iterated. -/
lemma mem_if_reverse_filter {p : List Nat → Bool} {store : List (List Nat)}
    {b : Bool} {k : List Nat}
    (hk : k ∈ (if b then (store.filter p).reverse else store.filter p)) :
    k ∈ store ∧ p k = true := by
  cases b <;> simp at hk <;> exact ⟨hk.1, hk.2⟩


/-! ### The claims -/

/-- C1: the claim says `dispatch(name, ...)` invokes wildcard listeners
(registered via `Listen`) as well as listeners registered for exactly
`name`.  The code compares `il.name == name` only, so a wildcard
listener (empty name) is never invoked for a named index: with one
`Listen` listener registered, dispatching for index name "c" (byte 99)
invokes nothing, while a `ListenIndex` listener for "c" is invoked. -/
theorem C1_wildcard_listener_not_invoked :
    (IndexSet.Listen (⟨[], []⟩ : IndexSet Nat) 7).triggerListeners [99] = []
    ∧ (IndexSet.Listen (⟨[], []⟩ : IndexSet Nat) 7).listeners.length = 1
    ∧ ((⟨[], []⟩ : IndexSet Nat).ListenIndex [99] 5).triggerListeners [99] = [5] :=
  ⟨rfl, rfl, rfl⟩

/-- C2: a key under the scan prefix with no zero separator aborts the
fetch at once with an error and no partial result; conversely, when
every key under the scan prefix carries the separator, the fetch
returns successfully. -/
theorem C2_missing_separator_aborts :
    (∀ (qplen namelen : Nat) (filter : Option (List Nat → Bool)) (k : List Nat)
        (rest : List (List Nat)) (o l : Int) (acc : List (List Nat)),
      lastIndexByte k ridSeparator = none →
      fetchLoop qplen namelen filter (k :: rest) o l acc = Except.error k)
    ∧ (∀ (iq : IndexQuery) (store : List (List Nat)),
      (∀ k ∈ store, (iq.Index.getQuery iq.KeyPrefix).isPrefixOf k →
        lastIndexByte k ridSeparator ≠ none) →
      ∃ r, iq.FetchCollection store = Except.ok r) := by
  constructor
  · exact fetchLoop_error
  · intro iq store hwf
    by_cases h0 : iq.Limit = 0
    · exact ⟨[], by simp [IndexQuery.FetchCollection, h0]⟩
    · rw [FetchCollection_eq iq store h0]
      apply fetchLoop_ok_of_wf
      intro k hk
      have hks := mem_if_reverse_filter hk
      exact hwf k hks.1 hks.2

/-- C2 witness: the loop errors on the separator-free key `[1, 2]`, and
a store whose only key is a well-formed entry fetches successfully. -/
theorem C2_missing_separator_aborts_witness :
    fetchLoop 2 2 none ([1, 2] :: []) 0 5 [] = Except.error [1, 2]
    ∧ ∃ r, IndexQuery.FetchCollection ⟨⟨[110]⟩, [], none, 0, -1, false⟩
        [[110, 58, 97, 0, 114]] = Except.ok r :=
  ⟨C2_missing_separator_aborts.1 2 2 none [1, 2] [] 0 5 [] (by decide),
    C2_missing_separator_aborts.2 ⟨⟨[110]⟩, [], none, 0, -1, false⟩
      [[110, 58, 97, 0, 114]] (by decide)⟩

/-- C3: a key whose last separator position is strictly below the scan
prefix length is skipped: not added, no offset or limit consumed, no
error — the loop continues on the remaining keys with the same state. -/
theorem C3_spurious_match_skipped (qplen namelen : Nat)
    (filter : Option (List Nat → Bool)) (k : List Nat) (rest : List (List Nat))
    (o l : Int) (acc : List (List Nat)) (i : Nat)
    (h : lastIndexByte k ridSeparator = some i) (hq : i < qplen) :
    fetchLoop qplen namelen filter (k :: rest) o l acc
      = fetchLoop qplen namelen filter rest o l acc := by
  simp [fetchLoop, h, hq]

/-- C3 witness: key `[110, 0, 99]` has its last separator at position 1,
below a scan prefix of length 4, and is skipped. -/
theorem C3_spurious_match_skipped_witness :
    lastIndexByte [110, 0, 99] ridSeparator = some 1 ∧ 1 < 4
    ∧ fetchLoop 4 2 none ([110, 0, 99] :: [[5]]) 0 7 []
        = fetchLoop 4 2 none [[5]] 0 7 [] :=
  ⟨by decide, by decide,
    C3_spurious_match_skipped 4 2 none [110, 0, 99] [[5]] 0 7 [] 1
      (by decide) (by decide)⟩

/-- C4: the entry key is the exact concatenation
`name ++ 58 ++ value ++ 0 ++ rid` of the stated length, and for a fixed
name with zero-free values, byte order of keys is byte order of values
with ties broken by the resource ids. -/
theorem C4_key_encoding_and_order (idx : Index) (v1 r1 v2 r2 : List Nat)
    (h1 : ridSeparator ∉ v1) (h2 : ridSeparator ∉ v2) :
    idx.getKey r1 v1 = idx.Name ++ colonByte :: (v1 ++ ridSeparator :: r1)
    ∧ (idx.getKey r1 v1).length = idx.Name.length + v1.length + r1.length + 2
    ∧ (byteLexLt (idx.getKey r1 v1) (idx.getKey r2 v2) ↔
        byteLexLt v1 v2 ∨ (v1 = v2 ∧ byteLexLt r1 r2)) := by
  refine ⟨getKey_eq idx r1 v1, ?_, ?_⟩
  · rw [getKey_eq]
    simp [List.length_append]
    omega
  · rw [getKey_eq, getKey_eq,
      show idx.Name ++ colonByte :: (v1 ++ ridSeparator :: r1)
        = (idx.Name ++ [colonByte]) ++ (v1 ++ ridSeparator :: r1) from by simp,
      show idx.Name ++ colonByte :: (v2 ++ ridSeparator :: r2)
        = (idx.Name ++ [colonByte]) ++ (v2 ++ ridSeparator :: r2) from by simp,
      byteLexLt_append_left_iff]
    exact byteLexLt_sep_iff v1 r1 v2 r2 h1 h2

/-- C4 witness at name "n", values "a" and "b", rids "r" and "s". -/
theorem C4_key_encoding_and_order_witness :
    ridSeparator ∉ ([97] : List Nat) ∧ ridSeparator ∉ ([98] : List Nat)
    ∧ (Index.getKey ⟨[110]⟩ [114] [97]
        = [110] ++ colonByte :: ([97] ++ ridSeparator :: [114])
      ∧ (Index.getKey ⟨[110]⟩ [114] [97]).length = 1 + 1 + 1 + 2
      ∧ (byteLexLt (Index.getKey ⟨[110]⟩ [114] [97])
            (Index.getKey ⟨[110]⟩ [115] [98]) ↔
          byteLexLt [97] [98] ∨ ([97] = [98] ∧ byteLexLt [114] [115]))) :=
  ⟨by decide, by decide,
    C4_key_encoding_and_order ⟨[110]⟩ [97] [114] [98] [115] (by decide) (by decide)⟩

/-- C5: a query with `Limit = 0` returns an empty result for every store
content and all other query fields; the result does not depend on the
store at all (no store access is needed). -/
theorem C5_zero_limit_noop (idx : Index) (kp : List Nat)
    (f : Option (List Nat → Bool)) (o : Int) (rev : Bool)
    (store : List (List Nat)) :
    IndexQuery.FetchCollection ⟨idx, kp, f, o, 0, rev⟩ store = Except.ok [] := by
  simp [IndexQuery.FetchCollection]


/-- C6 counterexample: with `Offset = 1, Limit = 0` and a malformed key
under the prefix, the left query returns `ok []` without touching the
store while `fetch(Offset=0, Limit=1)` aborts with the corruption
error, so the claimed slicing identity fails at this input. -/
theorem C6_pagination_counterexample :
    ¬ (IndexQuery.FetchCollection ⟨⟨[110]⟩, [], none, 1, 0, false⟩ [[110, 58, 97]]
      = Except.map (fun r => (r.drop (1 : Int).toNat).take ((0 : Int).toNat))
          (IndexQuery.FetchCollection ⟨⟨[110]⟩, [], none, 0, 1 + 0, false⟩
            [[110, 58, 97]])) := by
  intro hcontra
  have h1 : IndexQuery.FetchCollection ⟨⟨[110]⟩, [], none, 1, 0, false⟩
      [[110, 58, 97]] = Except.ok [] := rfl
  have h2 : IndexQuery.FetchCollection ⟨⟨[110]⟩, [], none, 0, 1 + 0, false⟩
      [[110, 58, 97]] = Except.error [110, 58, 97] := rfl
  rw [h1, h2] at hcontra
  simp [Except.map] at hcontra

/-- C6 amended: the pagination composition
`fetch(Offset=o, Limit=l) = slice(o, o+l, fetch(Offset=0, Limit=o+l))`
holds for all `o ≥ 0, l ≥ 0` provided `l ≥ 1`, or provided every key
under the scan prefix carries the separator (when `l = 0` the left side
skips the store entirely while the right side still scans, so a
corrupt entry can fail only the right side). -/
theorem C6_pagination_amended (idx : Index) (kp : List Nat)
    (f : Option (List Nat → Bool)) (rev : Bool) (store : List (List Nat))
    (o l : Int) (ho : 0 ≤ o) (hl : 0 ≤ l)
    (h : 1 ≤ l ∨ ∀ k ∈ store, (idx.getQuery kp).isPrefixOf k →
      lastIndexByte k ridSeparator ≠ none) :
    IndexQuery.FetchCollection ⟨idx, kp, f, o, l, rev⟩ store
      = Except.map (fun r => (r.drop o.toNat).take l.toNat)
          (IndexQuery.FetchCollection ⟨idx, kp, f, 0, o + l, rev⟩ store) := by
  by_cases hl0 : l = 0
  · subst hl0
    have hLHS : IndexQuery.FetchCollection ⟨idx, kp, f, o, 0, rev⟩ store
        = Except.ok [] := by simp [IndexQuery.FetchCollection]
    rw [hLHS]
    by_cases ho0 : o = 0
    · subst ho0
      simp [IndexQuery.FetchCollection, Except.map]
    · have hwf : ∀ k ∈ store, (idx.getQuery kp).isPrefixOf k →
          lastIndexByte k ridSeparator ≠ none := by
        rcases h with h | h
        · omega
        · exact h
      rw [FetchCollection_eq _ _ (show ¬ o + 0 = 0 from by omega)]
      obtain ⟨r, hr⟩ := fetchLoop_ok_of_wf ((idx.getQuery kp).length)
        (idx.Name.length + 1) f
        (if rev then (store.filter (fun k => (idx.getQuery kp).isPrefixOf k)).reverse
          else store.filter (fun k => (idx.getQuery kp).isPrefixOf k))
        0 (if o + 0 < 0 then maxInt else o + 0) []
        (fun k hk => hwf k (mem_if_reverse_filter hk).1 (mem_if_reverse_filter hk).2)
      rw [hr]
      simp [Except.map]
  · have hl1 : 1 ≤ l := by omega
    rw [FetchCollection_eq _ _ (show ¬ l = 0 from hl0),
      FetchCollection_eq _ _ (show ¬ o + l = 0 from by omega)]
    simp only [if_neg (show ¬ l < 0 from by omega),
      if_neg (show ¬ o + l < 0 from by omega)]
    exact fetchLoop_offset _ _ _ _ o l ho hl1

/-- C6 witness: a two-entry store with `o = 1, l = 2`. -/
theorem C6_pagination_amended_witness :
    (0 : Int) ≤ 1 ∧ (0 : Int) ≤ 2 ∧ (1 : Int) ≤ 2
    ∧ IndexQuery.FetchCollection ⟨⟨[110]⟩, [], none, 1, 2, false⟩
        [[110, 58, 97, 0, 114], [110, 58, 98, 0, 115]]
      = Except.map (fun r => (r.drop (1 : Int).toNat).take ((2 : Int).toNat))
          (IndexQuery.FetchCollection ⟨⟨[110]⟩, [], none, 0, 1 + 2, false⟩
            [[110, 58, 97, 0, 114], [110, 58, 98, 0, 115]]) :=
  ⟨by decide, by decide, by decide,
    C6_pagination_amended ⟨[110]⟩ [] none false
      [[110, 58, 97, 0, 114], [110, 58, 98, 0, 115]] 1 2
      (by decide) (by decide) (Or.inl (by decide))⟩


/-- C7 counterexample: with `Offset = 0, Limit = 1` over values "a", "b",
the filtered fetch returns the "b" resource while the unfiltered fetch
returns the "a" resource, so the filtered result is not a subsequence of
the unfiltered result of the same query, contradicting the claim for
queries with a limit. -/
theorem C7_filter_counterexample :
    IndexQuery.FetchCollection
        ⟨⟨[110]⟩, [], some (fun v => v == [98]), 0, 1, false⟩
        [[110, 58, 97, 0, 114, 49], [110, 58, 98, 0, 114, 50]]
      = Except.ok [[114, 50]]
    ∧ IndexQuery.FetchCollection ⟨⟨[110]⟩, [], none, 0, 1, false⟩
        [[110, 58, 97, 0, 114, 49], [110, 58, 98, 0, 114, 50]]
      = Except.ok [[114, 49]]
    ∧ ¬ List.Sublist [[114, 50]] [[114, 49]] :=
  ⟨rfl, rfl, by decide⟩

/-- C7 amended: for an offset-free, unlimited query over a store whose
keys under the scan prefix all carry the separator (and fit the limit
sentinel), there is one list `pk` of passing keys such that the
unfiltered fetch returns its resource references and the filtered fetch
returns the references of exactly the `f`-accepted subsequence of `pk`,
in the same relative order. -/
theorem C7_filter_amended (idx : Index) (kp : List Nat) (f : List Nat → Bool)
    (rev : Bool) (store : List (List Nat)) (lim : Int) (hlim : lim < 0)
    (hwf : ∀ k ∈ store, (idx.getQuery kp).isPrefixOf k →
      lastIndexByte k ridSeparator ≠ none)
    (hsize : (store.length : Int) < maxInt) :
    ∃ pk : List (List Nat),
      IndexQuery.FetchCollection ⟨idx, kp, none, 0, lim, rev⟩ store
        = Except.ok (pk.map ridOf)
      ∧ IndexQuery.FetchCollection ⟨idx, kp, some f, 0, lim, rev⟩ store
        = Except.ok ((pk.filter
            (fun k => f (rawValue (idx.Name.length + 1) k))).map ridOf) := by
  set ks := (if rev then (store.filter (fun k => (idx.getQuery kp).isPrefixOf k)).reverse
    else store.filter (fun k => (idx.getQuery kp).isPrefixOf k)) with hks
  have hkswf : ∀ k ∈ ks, lastIndexByte k ridSeparator ≠ none := by
    intro k hk
    rw [hks] at hk
    exact hwf k (mem_if_reverse_filter hk).1 (mem_if_reverse_filter hk).2
  have hkslen : (ks.length : Int) < maxInt := by
    have hle : ks.length ≤ store.length := by
      rw [hks]
      cases rev <;> simp [List.length_reverse] <;>
        exact List.length_filter_le _ _
    omega
  refine ⟨ks.filter (keyPass (idx.getQuery kp).length (idx.Name.length + 1) none),
    ?_, ?_⟩
  · rw [FetchCollection_eq _ _ (show ¬ lim = 0 from by omega)]
    simp only [if_pos hlim]
    rw [← hks]
    rw [fetchLoop_full _ _ _ _ maxInt [] hkswf
      (by
        have := List.length_filter_le
          (keyPass (idx.getQuery kp).length (idx.Name.length + 1) none) ks
        omega)]
    simp
  · rw [FetchCollection_eq _ _ (show ¬ lim = 0 from by omega)]
    simp only [if_pos hlim]
    rw [← hks]
    rw [fetchLoop_full _ _ _ _ maxInt [] hkswf
      (by
        have := List.length_filter_le
          (keyPass (idx.getQuery kp).length (idx.Name.length + 1) (some f)) ks
        omega)]
    rw [keyPass_filter_split]
    simp

/-- C7 witness: values "a", "b" with the filter accepting only "b". -/
theorem C7_filter_amended_witness :
    (-1 : Int) < 0
    ∧ ∃ pk : List (List Nat),
      IndexQuery.FetchCollection ⟨⟨[110]⟩, [], none, 0, -1, false⟩
          [[110, 58, 97, 0, 114, 49], [110, 58, 98, 0, 114, 50]]
        = Except.ok (pk.map ridOf)
      ∧ IndexQuery.FetchCollection
          ⟨⟨[110]⟩, [], some (fun v => v == [98]), 0, -1, false⟩
          [[110, 58, 97, 0, 114, 49], [110, 58, 98, 0, 114, 50]]
        = Except.ok ((pk.filter
            (fun k => (fun v => v == [98]) (rawValue (1 + 1) k))).map ridOf) :=
  ⟨by decide,
    C7_filter_amended ⟨[110]⟩ [] (fun v => v == [98]) false
      [[110, 58, 97, 0, 114, 49], [110, 58, 98, 0, 114, 50]] (-1)
      (by decide) (by decide) (by decide)⟩


/-- Every entry key of an index passes the scan of that index with an
empty caller prefix. -/
lemma getQuery_nil_isPrefixOf (idx : Index) (rname value : List Nat) :
    (idx.getQuery []).isPrefixOf (idx.getKey rname value) = true := by
  rw [List.isPrefixOf_iff_prefix, getQuery_eq, getKey_eq]
  exact ⟨value ++ ridSeparator :: rname, by simp⟩

lemma getQuery_nil_length (idx : Index) :
    (idx.getQuery []).length = idx.Name.length + 1 := by
  rw [getQuery_eq]; simp

/-- A zero-free entry key passes the boundary check of its own index. -/
lemma keyPass_getKey (idx : Index) (rname value : List Nat)
    (hr : ridSeparator ∉ rname) :
    keyPass (idx.Name.length + 1) (idx.Name.length + 1) none
      (idx.getKey rname value) = true := by
  simp only [keyPass, lastIndexByte_getKey idx rname value hr, filterSkip]
  simp

/-- The reference recovered from a zero-free entry key is its rid. -/
lemma ridOf_getKey (idx : Index) (rname value : List Nat)
    (hr : ridSeparator ∉ rname) :
    ridOf (idx.getKey rname value) = rname := by
  simp only [ridOf, lastIndexByte_getKey idx rname value hr, Option.getD_some]
  exact getKey_drop idx rname value

/-- C8: entries stored in key byte order are returned in that order by a
full forward scan, the reverse scan returns the exact reverse, and key
byte order is value byte order with rid tiebreak. -/
theorem C8_order_roundtrip (idx : Index) (entries : List (List Nat × List Nat))
    (hz : ∀ e ∈ entries, ridSeparator ∉ e.1 ∧ ridSeparator ∉ e.2)
    (hsorted : List.Pairwise
      (fun a b => byteLexLt (idx.getKey a.1 a.2) (idx.getKey b.1 b.2)) entries)
    (hsize : (entries.length : Int) < maxInt) :
    IndexQuery.FetchCollection ⟨idx, [], none, 0, -1, false⟩
        (entries.map (fun e => idx.getKey e.1 e.2))
      = Except.ok (entries.map (fun e => e.1))
    ∧ IndexQuery.FetchCollection ⟨idx, [], none, 0, -1, true⟩
        (entries.map (fun e => idx.getKey e.1 e.2))
      = Except.ok ((entries.map (fun e => e.1)).reverse)
    ∧ List.Pairwise
        (fun a b => byteLexLt a.2 b.2 ∨ (a.2 = b.2 ∧ byteLexLt a.1 b.1)) entries := by
  set store := entries.map (fun e => idx.getKey e.1 e.2) with hstore
  have hmem : ∀ k ∈ store, ∃ e ∈ entries, k = idx.getKey e.1 e.2 := by
    intro k hk
    rw [hstore] at hk
    obtain ⟨e, he, hke⟩ := List.mem_map.1 hk
    exact ⟨e, he, hke.symm⟩
  have hfiltered : store.filter (fun k => (idx.getQuery []).isPrefixOf k) = store := by
    apply List.filter_eq_self.2
    intro k hk
    obtain ⟨e, he, rfl⟩ := hmem k hk
    exact getQuery_nil_isPrefixOf idx e.1 e.2
  have hwf : ∀ k ∈ store, lastIndexByte k ridSeparator ≠ none := by
    intro k hk
    obtain ⟨e, he, rfl⟩ := hmem k hk
    rw [lastIndexByte_getKey idx e.1 e.2 (hz e he).1]
    simp
  have hpass : ∀ k ∈ store,
      keyPass (idx.getQuery []).length (idx.Name.length + 1) none k = true := by
    intro k hk
    obtain ⟨e, he, rfl⟩ := hmem k hk
    rw [getQuery_nil_length]
    exact keyPass_getKey idx e.1 e.2 (hz e he).1
  have hrid : store.map ridOf = entries.map (fun e => e.1) := by
    rw [hstore, List.map_map]
    apply List.map_congr_left
    intro e he
    exact ridOf_getKey idx e.1 e.2 (hz e he).1
  refine ⟨?_, ?_, ?_⟩
  · rw [FetchCollection_eq _ _ (show ¬ (-1 : Int) = 0 from by decide)]
    simp only [if_pos (show (-1 : Int) < 0 from by decide), Bool.false_eq_true,
      if_false, hfiltered]
    rw [fetchLoop_full _ _ _ _ maxInt [] hwf
      (by rw [List.filter_eq_self.2 hpass, hstore]; simpa using hsize)]
    rw [List.filter_eq_self.2 hpass, hrid]
    simp
  · rw [FetchCollection_eq _ _ (show ¬ (-1 : Int) = 0 from by decide)]
    simp only [if_pos (show (-1 : Int) < 0 from by decide), if_true, hfiltered]
    have hwfr : ∀ k ∈ store.reverse, lastIndexByte k ridSeparator ≠ none :=
      fun k hk => hwf k (List.mem_reverse.1 hk)
    have hpassr : ∀ k ∈ store.reverse,
        keyPass (idx.getQuery []).length (idx.Name.length + 1) none k = true :=
      fun k hk => hpass k (List.mem_reverse.1 hk)
    rw [fetchLoop_full _ _ _ _ maxInt [] hwfr
      (by rw [List.filter_eq_self.2 hpassr, List.length_reverse, hstore]
          simpa using hsize)]
    rw [List.filter_eq_self.2 hpassr, List.map_reverse, hrid]
    simp
  · apply hsorted.imp_of_mem
    intro a b ha hb hlt
    rw [getKey_eq, getKey_eq,
      show idx.Name ++ colonByte :: (a.2 ++ ridSeparator :: a.1)
        = (idx.Name ++ [colonByte]) ++ (a.2 ++ ridSeparator :: a.1) from by simp,
      show idx.Name ++ colonByte :: (b.2 ++ ridSeparator :: b.1)
        = (idx.Name ++ [colonByte]) ++ (b.2 ++ ridSeparator :: b.1) from by simp,
      byteLexLt_append_left_iff] at hlt
    exact (byteLexLt_sep_iff a.2 a.1 b.2 b.1 (hz a ha).2 (hz b hb).2).1 hlt

/-- C8 witness: two entries with values "a" < "b". -/
theorem C8_order_roundtrip_witness :
    (∀ e ∈ [([114], [97]), ([115], [98])],
      ridSeparator ∉ e.1 ∧ ridSeparator ∉ e.2)
    ∧ IndexQuery.FetchCollection ⟨⟨[110]⟩, [], none, 0, -1, false⟩
        ([([114], [97]), ([115], [98])].map
          (fun e => Index.getKey ⟨[110]⟩ e.1 e.2))
      = Except.ok ([([114], [97]), ([115], [98])].map (fun e => e.1))
    ∧ IndexQuery.FetchCollection ⟨⟨[110]⟩, [], none, 0, -1, true⟩
        ([([114], [97]), ([115], [98])].map
          (fun e => Index.getKey ⟨[110]⟩ e.1 e.2))
      = Except.ok (([([114], [97]), ([115], [98])].map (fun e => e.1)).reverse) := by
  have h := C8_order_roundtrip ⟨[110]⟩ [([114], [97]), ([115], [98])]
    (by decide)
    (by
      constructor
      · intro b hb
        fin_cases hb <;> decide
      · simp)
    (by decide)
  exact ⟨by decide, h.1, h.2.1⟩


/-- C9: the scan prefix `name ++ 58 ++ p` is a byte-prefix of the entry
key `name ++ 58 ++ v ++ 0 ++ r` exactly when `p` is a byte-prefix of
`v ++ 0 ++ r`; in particular the empty caller prefix matches every
entry key of the index. -/
theorem C9_scan_prefix_matches (idx : Index) (p v r : List Nat) :
    (idx.getQuery p <+: idx.getKey r v ↔ p <+: v ++ ridSeparator :: r)
    ∧ idx.getQuery [] <+: idx.getKey r v := by
  constructor
  · rw [getQuery_eq, getKey_eq,
      show idx.Name ++ colonByte :: p = (idx.Name ++ [colonByte]) ++ p from by simp,
      show idx.Name ++ colonByte :: (v ++ ridSeparator :: r)
        = (idx.Name ++ [colonByte]) ++ (v ++ ridSeparator :: r) from by simp]
    exact List.prefix_append_right_inj _
  · rw [getQuery_eq, getKey_eq]
    exact ⟨v ++ ridSeparator :: r, by simp⟩

/-- C10: for zero-free value and rid, the last separator of the key sits
right after the value, the suffix after it is exactly the rid, the
slice between the name prefix and the separator is exactly the value,
and `getKey` is injective in the `(value, rid)` pair. -/
theorem C10_separator_split (idx : Index) (rname value : List Nat)
    (hv : ridSeparator ∉ value) (hr : ridSeparator ∉ rname) :
    lastIndexByte (idx.getKey rname value) ridSeparator
        = some (idx.Name.length + 1 + value.length)
    ∧ (idx.getKey rname value).drop (idx.Name.length + 1 + value.length + 1) = rname
    ∧ goSlice (idx.getKey rname value) (idx.Name.length + 1)
        (idx.Name.length + 1 + value.length) = value
    ∧ (∀ r2 v2 : List Nat, ridSeparator ∉ v2 → ridSeparator ∉ r2 →
        idx.getKey rname value = idx.getKey r2 v2 → value = v2 ∧ rname = r2) := by
  refine ⟨lastIndexByte_getKey idx rname value hr, getKey_drop idx rname value,
    getKey_slice idx rname value, ?_⟩
  intro r2 v2 _hv2 hr2 heq
  have h1 := lastIndexByte_getKey idx rname value hr
  have h2 := lastIndexByte_getKey idx r2 v2 hr2
  rw [heq] at h1
  rw [h1, Option.some.injEq] at h2
  have hlen : value.length = v2.length := by omega
  constructor
  · have s1 := getKey_slice idx rname value
    have s2 := getKey_slice idx r2 v2
    rw [heq, hlen] at s1
    rw [s2] at s1
    exact s1.symm
  · have d1 := getKey_drop idx rname value
    have d2 := getKey_drop idx r2 v2
    rw [heq, hlen] at d1
    rw [d2] at d1
    exact d1.symm

/-- C10 witness at name "n", value "v", rid "r". -/
theorem C10_separator_split_witness :
    ridSeparator ∉ ([118] : List Nat) ∧ ridSeparator ∉ ([114] : List Nat)
    ∧ (lastIndexByte (Index.getKey ⟨[110]⟩ [114] [118]) ridSeparator
        = some (1 + 1 + 1)
      ∧ (Index.getKey ⟨[110]⟩ [114] [118]).drop (1 + 1 + 1 + 1) = [114]
      ∧ goSlice (Index.getKey ⟨[110]⟩ [114] [118]) (1 + 1) (1 + 1 + 1) = [118]
      ∧ (∀ r2 v2 : List Nat, ridSeparator ∉ v2 → ridSeparator ∉ r2 →
          Index.getKey ⟨[110]⟩ [114] [118] = Index.getKey ⟨[110]⟩ r2 v2 →
          [118] = v2 ∧ [114] = r2)) :=
  ⟨by decide, by decide,
    C10_separator_split ⟨[110]⟩ [114] [118] (by decide) (by decide)⟩


end ResBadger
